import Mathlib

/-!
Shallow embedding of the cveureka waveform-processing and L1B-loading core
(`src/process/tools.py`, `src/process/process.py`, `src/load/l1b/asiras.py`,
`src/load/l1b/als.py`) over `List ℚ`, together with theorems settling the
spec claims about the TFMRA retracker, the waveform shape descriptors, the
ASIRAS block decoder / dataset selection, and the ALS NaN filtering.

Conventions:
* a numpy 1-D float array is a `List ℚ`; a 2-D array is a `List (List ℚ)`
  (row major, one inner list per observation);
* a Python value that may be `None` (or a numpy cell that may be NaN after
  `astype(float)`) is an `Option ℚ`, with `none` for `None`/NaN;
* IEEE float special values, where the distinction between NaN and ±inf
  matters (pulse peakiness), are the dedicated type `FloatVal`;
* list indexing uses `List.getD` with default `0`; every use is guarded by
  an in-bounds fact at the call sites that matter.
-/

/-- The `InterpolateDirection` enum of `src/process/tools.py`. -/
inductive InterpolateDirection where
  | LEFT
  | RIGHT
deriving DecidableEq, Repr

/-- Semantics of `np.ndarray.argmax` on a 1-D array: the index of the first
occurrence of the maximum value (numpy documents that ties resolve to the
first occurrence).  On the empty list we return `0`; numpy raises there and
every use below is guarded by nonemptiness where it matters. -/
def argmax : List ℚ → Nat
  | [] => 0
  | [_] => 0
  | x :: y :: xs =>
    let j := argmax (y :: xs)
    if x < (y :: xs).getD j 0 then j + 1 else 0

/-- Semantics of `np.where(l <= target)[0]` on a 1-D array `l`: the sorted
list of indices of `l` whose value is `≤ target`. -/
def candidatesLE (l : List ℚ) (target : ℚ) : List Nat :=
  (List.range l.length).filter (fun j => decide (l.getD j 0 ≤ target))

/-- Python sequence indexing with its negative-index convention:
`l[i]` is `l[len l + i]` for `i < 0`.  Out-of-range access defaults to `0`
(Python raises; all uses below are in range). -/
def pyGet (l : List ℚ) (i : ℤ) : ℚ :=
  if i < 0 then l.getD (l.length - (-i).toNat) 0 else l.getD i.toNat 0

/-- `lin_interp_from_first_max` from `src/process/tools.py` (lines 14-64).
Returns the linearly interpolated fractional index at which the waveform
crosses `threshold` times its first maximum, searching from the index of the
first maximum in `direction`; `none` models the Python `None` returned when
no candidate crossing exists. -/
def lin_interp_from_first_max (array : List ℚ) (threshold : ℚ)
    (direction : InterpolateDirection) : Option ℚ :=
  let index_peak := argmax array
  let target_value := array.getD index_peak 0 * threshold
  if threshold = 1 then
    some (index_peak : ℚ)
  else
    match direction with
    | .RIGHT =>
      if index_peak = array.length then
        some (index_peak : ℚ)
      else
        match (candidatesLE (array.drop index_peak) target_value).head? with
        | none => none
        | some c =>
          let index_found := c + index_peak
          let value_found := array.getD index_found 0
          if value_found = target_value then
            some (index_found : ℚ)
          else
            let index_prev : ℤ := (index_found : ℤ) - 1
            let value_prev := pyGet array index_prev
            let index_gap := (value_prev - target_value) /
              (value_prev - value_found)
            some ((index_prev : ℚ) + index_gap)
    | .LEFT =>
      if index_peak = 0 then
        some (index_peak : ℚ)
      else
        match (candidatesLE (array.take index_peak) target_value).getLast? with
        | none => none
        | some index_found =>
          let value_found := array.getD index_found 0
          if value_found = target_value then
            some (index_found : ℚ)
          else
            let index_prev := index_found + 1
            let value_prev := array.getD index_prev 0
            let index_gap := (value_prev - target_value) /
              (value_prev - value_found)
            some ((index_prev : ℚ) - index_gap)

/-- `calc_tfmra_elevation` from `src/process/tools.py` (lines 122-148).
Row `i`, column `j` of the result is
`first_bin_elvtn[i] - lin_interp_from_first_max(waveform[i], thresholds[j], LEFT) * bin_size`;
a `none` cell models the per-pair absence of a crossing. -/
def calc_tfmra_elevation (thresholds : List ℚ) (waveform : List (List ℚ))
    (first_bin_elvtn : List ℚ) (bin_size : ℚ) : List (List (Option ℚ)) :=
  (waveform.zip first_bin_elvtn).map (fun rf =>
    thresholds.map (fun t =>
      (lin_interp_from_first_max rf.1 t .LEFT).map
        (fun x => rf.2 - x * bin_size)))

/-- Modelled from the spec: the spec's description of the retracker says it
locates "the first local maximum in the row".  `isLocalMax a j` holds when
`a[j]` is at least each of its existing neighbours. -/
def isLocalMax (a : List ℚ) (j : Nat) : Bool :=
  decide ((j = 0 ∨ a.getD (j - 1) 0 ≤ a.getD j 0) ∧
    (j = a.length - 1 ∨ a.getD (j + 1) 0 ≤ a.getD j 0))

/-- Modelled from the spec: smallest index of the row that is a local
maximum (`0` on the empty row). -/
def firstLocalMax (a : List ℚ) : Nat :=
  ((List.range a.length).filter (isLocalMax a)).headD 0

/-- Modelled from the spec: the leftward crossing-interpolation search as
claim C1 words it, i.e. the very algorithm of `lin_interp_from_first_max`
in the `LEFT` direction but anchored at the *first local maximum* instead
of the first occurrence of the global maximum.  Used only to compare the
claim's wording with the code. -/
def lin_interp_from_first_local_max (array : List ℚ) (threshold : ℚ) :
    Option ℚ :=
  let index_peak := firstLocalMax array
  let target_value := array.getD index_peak 0 * threshold
  if threshold = 1 then
    some (index_peak : ℚ)
  else if index_peak = 0 then
    some (index_peak : ℚ)
  else
    match (candidatesLE (array.take index_peak) target_value).getLast? with
    | none => none
    | some index_found =>
      let value_found := array.getD index_found 0
      if value_found = target_value then
        some (index_found : ℚ)
      else
        let index_prev := index_found + 1
        let value_prev := array.getD index_prev 0
        let index_gap := (value_prev - target_value) /
          (value_prev - value_found)
        some ((index_prev : ℚ) - index_gap)

/-- Semantics of `np.amax` on a 1-D array: the maximum value (`0` on the
empty list, where numpy raises). -/
def amax : List ℚ → ℚ
  | [] => 0
  | x :: xs => xs.foldl max x

/-- `aggregate_relative_indices` from `src/process/tools.py` (lines
151-168): apply `aggregate_func` to the values of `array` at the in-bounds
indices obtained by offsetting `starting_index_func array` by each entry of
`indices`. -/
def aggregate_relative_indices (array : List ℚ) (indices : List ℤ)
    (starting_index_func : List ℚ → Nat) (aggregate_func : List ℚ → ℚ) : ℚ :=
  let starting_index : ℤ := starting_index_func array
  let get_indices := indices.filterMap (fun i =>
    if 0 ≤ starting_index + i ∧ starting_index + i < (array.length : ℤ) then
      some (starting_index + i).toNat
    else
      none)
  aggregate_func (get_indices.map (fun j => array.getD j 0))

/-- IEEE-754 double values as far as the peakiness computation needs them:
a finite value, NaN, or a signed infinity. -/
inductive FloatVal where
  | num (x : ℚ)
  | nan
  | inf
  | ninf
deriving DecidableEq, Repr

/-- IEEE division of a finite float by a float: division by `±inf` gives a
zero, division by NaN gives NaN, and division by a zero denominator gives
NaN for a zero numerator and a signed infinity otherwise.  This is what
numpy's `/` does cell-wise (modulo the runtime warning it also emits). -/
def fdivNum (a : ℚ) : FloatVal → FloatVal
  | .nan => .nan
  | .inf => .num 0
  | .ninf => .num 0
  | .num b =>
    if b = 0 then
      if a = 0 then .nan else if 0 < a then .inf else .ninf
    else
      .num (a / b)

/-- The guard pattern `s[s == 0] = np.nan` of `create_wshape_table`
(`src/process/process.py` lines 598, 608, 618) applied to one cell: replace
a zero sum by NaN. -/
def guardZeroSum (s : ℚ) : FloatVal :=
  if s = 0 then .nan else .num s

/-- Per-row full-waveform pulse peakiness exactly as `create_wshape_table`
computes it (`src/process/process.py` line 599):
`ppeak_full = peak_value / np.sum(scaled_waveform, 1)`.  Note the code
divides by the *freshly recomputed* row sum, not by the `sum_full` array
whose zeros were just replaced by NaN on line 598. -/
def ppeak_full (row : List ℚ) : FloatVal :=
  fdivNum (amax row) (.num row.sum)

/-- The `sum_full` array of `create_wshape_table` after the zero guard on
line 598 (`sum_full[sum_full == 0] = np.nan`), for one row.  The code never
uses it afterwards. -/
def sum_full_guarded (row : List ℚ) : FloatVal :=
  guardZeroSum row.sum

/-- Per-row left-window pulse peakiness of `create_wshape_table`
(`src/process/process.py` lines 602-609): the window sum is produced by
`aggregate_relative_indices` anchored at `np.argmax` with aggregate
`np.sum`, its zeros are replaced by NaN, and the peak is divided by the
guarded sum. -/
def ppeak_left (row : List ℚ) (ppeak_indices_left : List ℤ) : FloatVal :=
  fdivNum (amax row)
    (guardZeroSum
      (aggregate_relative_indices row ppeak_indices_left argmax List.sum))

/-- Per-row right-window pulse peakiness of `create_wshape_table`
(`src/process/process.py` lines 612-619), same shape as `ppeak_left`. -/
def ppeak_right (row : List ℚ) (ppeak_indices_right : List ℤ) : FloatVal :=
  fdivNum (amax row)
    (guardZeroSum
      (aggregate_relative_indices row ppeak_indices_right argmax List.sum))

/-- `return_bound_left` of `create_wshape_table` (`src/process/process.py`
lines 625-633) for one row: the leftward signal-threshold crossing index;
`none` models the NaN that `astype(float)` turns a Python `None` into. -/
def return_bound_left (row : List ℚ) (signal_threshold : ℚ) : Option ℚ :=
  lin_interp_from_first_max row signal_threshold .LEFT

/-- `return_bound_right` of `create_wshape_table` (`src/process/process.py`
lines 634-642) for one row. -/
def return_bound_right (row : List ℚ) (signal_threshold : ℚ) : Option ℚ :=
  lin_interp_from_first_max row signal_threshold .RIGHT

/-- `rwidth_left` of `create_wshape_table` (`src/process/process.py` line
644) for one row: `(peak_index - return_bound_left) * bin_size` with
`peak_index = np.argmax(row)`. -/
def rwidth_left (row : List ℚ) (signal_threshold bin_size : ℚ) : Option ℚ :=
  (return_bound_left row signal_threshold).map
    (fun b => ((argmax row : ℚ) - b) * bin_size)

/-- `rwidth_right` of `create_wshape_table` (`src/process/process.py` line
645) for one row: the code computes `(peak_index + return_bound_right) *
bin_size` — a `+`, with `return_bound_right` an absolute bin index. -/
def rwidth_right (row : List ℚ) (signal_threshold bin_size : ℚ) : Option ℚ :=
  (return_bound_right row signal_threshold).map
    (fun b => ((argmax row : ℚ) + b) * bin_size)

/-- `rwidth_full = rwidth_left + rwidth_right` (`src/process/process.py`
line 646) for one row; NaN (here `none`) propagates through the sum. -/
def rwidth_full (row : List ℚ) (signal_threshold bin_size : ℚ) : Option ℚ :=
  match rwidth_left row signal_threshold bin_size,
      rwidth_right row signal_threshold bin_size with
  | some l, some r => some (l + r)
  | _, _ => none

/-- One entry of the `fields_format` tables of
`src/load/l1b/asiras_config.py`: field name (the configured `skip_field`
sentinel `"~"` marks filler bytes), the per-item byte width and signedness
that the `struct` read type encodes, the write scale, and the repeat
count. -/
structure FieldSpec where
  name : String
  itemSize : Nat
  signed : Bool
  scale : ℚ
  count : Nat
deriving DecidableEq, Repr

/-- One tuple `(size, save_output, read_format, multi, scale)` produced by
`AsirasLoader._get_group_read_rules` (`src/load/l1b/asiras.py` lines
84-106); `read_format` is kept as its `(itemSize, signed, count)`
content, from which `struct.calcsize` is `count * itemSize` (big-endian
formats have no padding). -/
structure ReadRule where
  size : Nat
  save_output : Bool
  itemSize : Nat
  signed : Bool
  count : Nat
  multi : Bool
  scale : ℚ
deriving DecidableEq, Repr

/-- `AsirasLoader._get_group_read_rules` for one group: for each field,
`size = calcsize(byte_order + (str(count) + read_type if count > 1 else
read_type)) = count * itemSize`, `save_output = name != skip_field`,
`multi = count > 1`. -/
def get_group_read_rules (skip_field : String) (group : List FieldSpec) :
    List ReadRule :=
  group.map (fun f =>
    { size := f.count * f.itemSize
      save_output := f.name ≠ skip_field
      itemSize := f.itemSize
      signed := f.signed
      count := f.count
      multi := 1 < f.count
      scale := f.scale })

/-- A binary file opened for reading: its bytes and the cursor position.
`file.read(n)` returns the next `min n (remaining)` bytes and advances the
cursor by that many. -/
structure FileState where
  data : List Nat
  pos : Nat
deriving DecidableEq, Repr

/-- `file.read(n)`: the bytes returned and the new file state. -/
def fread (fs : FileState) (n : Nat) : List Nat × FileState :=
  ((fs.data.drop fs.pos).take n,
    ⟨fs.data, fs.pos + min n (fs.data.length - fs.pos)⟩)

/-- Big-endian interpretation of a byte list as an unsigned integer. -/
def beNat (bs : List Nat) : Nat :=
  bs.foldl (fun acc b => acc * 256 + b) 0

/-- Two's-complement reinterpretation of an `n`-byte unsigned value. -/
def toSigned (n : Nat) (v : Nat) : ℤ :=
  if v < 2 ^ (8 * n - 1) then (v : ℤ) else (v : ℤ) - 2 ^ (8 * n)

/-- Semantics of `struct.unpack` for a big-endian format of `count` items
of `itemSize` bytes each: the tuple of decoded integers. -/
def unpackItems (itemSize count : Nat) (signed : Bool) (bytes : List Nat) :
    List ℤ :=
  (List.range count).map (fun i =>
    let bs := (bytes.drop (i * itemSize)).take itemSize
    if signed then toSigned itemSize (beNat bs) else (beNat bs : ℤ))

/-- A decoded record cell: scalar for `count = 1` fields, fixed-length
array for `count > 1` fields. -/
inductive Value where
  | scalar (x : ℚ)
  | array (xs : List ℚ)
deriving DecidableEq, Repr

/-- The per-field body of `AsirasLoader._read_block_group`
(`src/load/l1b/asiras.py` lines 116-132): read exactly `size` bytes; a
skip field produces no output, a multi field produces a list (scaled
unless `scale == 1`), a scalar field produces `value[0]` (scaled unless
`scale == 1`). -/
def read_field (fs : FileState) (r : ReadRule) : Option Value × FileState :=
  let (bytes, fs') := fread fs r.size
  if r.save_output then
    let value := unpackItems r.itemSize r.count r.signed bytes
    if r.multi then
      if r.scale ≠ 1 then
        (some (.array (value.map (fun v => (v : ℚ) * r.scale))), fs')
      else
        (some (.array (value.map (fun v => (v : ℚ)))), fs')
    else
      if r.scale ≠ 1 then
        (some (.scalar ((value.getD 0 0 : ℚ) * r.scale)), fs')
      else
        (some (.scalar (value.getD 0 0 : ℚ)), fs')
  else
    (none, fs')

/-- The inner loop of `AsirasLoader._read_block_group` over the fields of
one row: fold the read rules in declared order, appending the produced
values and threading the file cursor. -/
def read_row (fs : FileState) (rules : List ReadRule) :
    List Value × FileState :=
  rules.foldl
    (fun acc r =>
      match read_field acc.2 r with
      | (some v, fs') => (acc.1 ++ [v], fs')
      | (none, fs') => (acc.1, fs'))
    ([], fs)

/-- `AsirasLoader._read_block_group` (`src/load/l1b/asiras.py` lines
108-134): read `rows_per_block` rows with the given rules, buffering each
row's values. -/
def read_block_group (fs : FileState) (rules : List ReadRule)
    (rows_per_block : Nat) : List (List Value) × FileState :=
  (List.range rows_per_block).foldl
    (fun acc _ =>
      let (row, fs') := read_row acc.2 rules
      (acc.1 ++ [row], fs'))
    ([], fs)

/-- Declared byte width of a prefix of a field group: the sum of
`count * itemSize` over its fields — a pure function of the `FieldSpec`
list, computable without reading any data. -/
def groupStride (group : List FieldSpec) : Nat :=
  (group.map (fun f => f.count * f.itemSize)).sum

/-- A parsed product header: the key→value pairs that
`AsirasLoader._parse_product_header` extracts.  Lookup of a key the header
defines goes through `List.lookup`; the headers queried below always
define the queried keys (Python would raise `KeyError` otherwise). -/
abbrev HeaderMap := List (String × String)

/-- `d[name_key].startswith(name_prefix)` for one dataset header. -/
def dsh_matches (name_key pfx : String) (d : HeaderMap) : Bool :=
  ((d.lookup name_key).getD "").startsWith pfx

/-- The dataset-header selection of `AsirasLoader.extract_to_database`
(`src/load/l1b/asiras.py` lines 194-199):
`next((d for d in dsh if d[name_key].startswith(name_prefix)), None)` —
the first header in table order whose name starts with the prefix, `none`
when no header matches (the generator's `None` default). -/
def select_asiras_dsh (dsh : List HeaderMap) (name_key pfx : String) :
    Option HeaderMap :=
  dsh.find? (dsh_matches name_key pfx)

/-- The run-time errors the dataset-location code can surface. -/
inductive PyError where
  | datasetNotFound
  | typeError
  | keyError
  | valueErrorInt
deriving DecidableEq, Repr

/-- Lines 194-208 of `src/load/l1b/asiras.py`: select the ASIRAS dataset
header and read `num_blocks = int(asiras_dsh[dsh_blocks_key])`.

The `try`/`except StopIteration` around the selection would raise the
dedicated `ValueError` (`datasetNotFound` here), but `next` is called with
the default `None`, so `StopIteration` is never raised and that handler is
unreachable; when no header matches, `asiras_dsh` is `None` and the
subscription `asiras_dsh[self.config.dsh_blocks_key]` raises
`TypeError: 'NoneType' object is not subscriptable` (`typeError` here).
A header without the key raises `KeyError`; a non-numeric value makes
`int()` raise `ValueError` (`valueErrorInt`). -/
def read_num_blocks (dsh : List HeaderMap) (name_key pfx blocks_key : String) :
    Except PyError ℤ :=
  match select_asiras_dsh dsh name_key pfx with
  | none => .error .typeError
  | some d =>
    match d.lookup blocks_key with
    | none => .error .keyError
    | some s =>
      match s.toInt? with
      | none => .error .valueErrorInt
      | some n => .ok n

/-- One decoded scanner point in the order the ALS loader zips it:
`(elevation, longitude, latitude)`; a `none` component models a NaN decoded
from the file. -/
abbrev AlsPoint := Option ℚ × Option ℚ × Option ℚ

/-- `any(map(isnan, row))` for one scanner point. -/
def hasNaN (r : AlsPoint) : Bool :=
  r.1.isNone || r.2.1.isNone || r.2.2.isNone

/-- `zip(line_elv, line_lon, line_lat)` of `AlsLoader.extract_to_database`
(`src/load/l1b/als.py` line 126): the per-point tuples of one line
(Python's `zip` truncates to the shortest input). -/
def line_rows (line_elv line_lon line_lat : List (Option ℚ)) :
    List AlsPoint :=
  line_elv.zip (line_lon.zip line_lat)

/-- The per-line filtering loop of `AlsLoader.extract_to_database`
(`src/load/l1b/als.py` lines 125-131): walk the zipped points in order,
appending to the buffer and incrementing `points_buffered` exactly when no
component is NaN. -/
def process_line (buffer : List AlsPoint) (points_buffered : Nat)
    (line_elv line_lon line_lat : List (Option ℚ)) : List AlsPoint × Nat :=
  (line_rows line_elv line_lon line_lat).foldl
    (fun acc r =>
      if ¬hasNaN r then (acc.1 ++ [r], acc.2 + 1) else acc)
    (buffer, points_buffered)

/-- `p` is the index of the first occurrence of the global maximum of `a`:
it is in range, no value exceeds `a[p]`, and every earlier value is
strictly below `a[p]`. -/
def IsFirstMaxIndex (a : List ℚ) (p : Nat) : Prop :=
  p < a.length ∧ (∀ i, i < a.length → a.getD i 0 ≤ a.getD p 0) ∧
    ∀ i, i < p → a.getD i 0 < a.getD p 0

/-- What the (amended) claim C1 says the leftward search produces for row
`a`, threshold `t` and returned fractional index `r`: writing `p` for the
first-occurrence global-maximum index and `target = a[p] * t`, either
`t = 1` and `r` is `p` itself; or the maximum sits at index `0` and `r` is
that boundary index; or there is a last index `f` left of `p` with
`a[f] ≤ target` (everything strictly between `f` and `p` is above the
target), and `r = f` when `a[f]` hits the target exactly, while otherwise
`r` lies on the line through `(f, a[f])` and `(f+1, a[f+1])` at the exact
height of the target. -/
def TfmraLeftResultSpec (a : List ℚ) (t r : ℚ) : Prop :=
  ∃ p, IsFirstMaxIndex a p ∧
    ((t = 1 ∧ r = p)
     ∨ (t ≠ 1 ∧ p = 0 ∧ r = 0)
     ∨ (t ≠ 1 ∧ 0 < p ∧ ∃ f, f < p ∧ a.getD f 0 ≤ a.getD p 0 * t
          ∧ (∀ k, f < k → k < p → a.getD p 0 * t < a.getD k 0)
          ∧ ((a.getD f 0 = a.getD p 0 * t ∧ r = f)
             ∨ (a.getD f 0 < a.getD p 0 * t ∧
                a.getD f 0 + (r - f) * (a.getD (f + 1) 0 - a.getD f 0)
                  = a.getD p 0 * t))))

/-! ## Helper lemmas about `argmax` -/

theorem argmax_lt_length : ∀ (a : List ℚ), a ≠ [] → argmax a < a.length := by
  intro a
  induction a with
  | nil => simp
  | cons x xs ih =>
    cases xs with
    | nil => intro _; simp [argmax]
    | cons y ys =>
      intro _
      simp only [argmax]
      split
      · have := ih (by simp)
        simpa using this
      · simp

theorem getD_le_argmax :
    ∀ (a : List ℚ) (i : Nat), i < a.length →
      a.getD i 0 ≤ a.getD (argmax a) 0 := by
  intro a
  induction a with
  | nil => simp
  | cons x xs ih =>
    cases xs with
    | nil =>
      intro i hi
      simp only [List.length_cons, List.length_nil] at hi
      cases i with
      | zero => simp [argmax]
      | succ k => exact absurd hi (by omega)
    | cons y ys =>
      intro i hi
      by_cases hc : x < (y :: ys).getD (argmax (y :: ys)) 0
      · simp only [argmax, if_pos hc, List.getD_cons_succ]
        cases i with
        | zero => exact le_of_lt hc
        | succ k =>
          simp only [List.getD_cons_succ]
          exact ih k (by simpa using hi)
      · simp only [argmax, if_neg hc, List.getD_cons_zero]
        cases i with
        | zero => simp
        | succ k =>
          simp only [List.getD_cons_succ]
          exact le_trans (ih k (by simpa using hi)) (le_of_not_lt hc)

theorem getD_lt_of_lt_argmax :
    ∀ (a : List ℚ) (i : Nat), i < argmax a →
      a.getD i 0 < a.getD (argmax a) 0 := by
  intro a
  induction a with
  | nil => simp [argmax]
  | cons x xs ih =>
    cases xs with
    | nil => intro i hi; simp [argmax] at hi
    | cons y ys =>
      intro i hi
      by_cases hc : x < (y :: ys).getD (argmax (y :: ys)) 0
      · simp only [argmax, if_pos hc, List.getD_cons_succ] at hi ⊢
        cases i with
        | zero => exact hc
        | succ k =>
          simp only [List.getD_cons_succ]
          exact ih k (by omega)
      · simp only [argmax, if_neg hc] at hi
        exact absurd hi (by omega)

/-! ## Helper lemmas about `candidatesLE` -/

theorem mem_candidatesLE {l : List ℚ} {t : ℚ} {j : Nat} :
    j ∈ candidatesLE l t ↔ j < l.length ∧ l.getD j 0 ≤ t := by
  simp [candidatesLE, List.mem_filter, List.mem_range]

theorem candidatesLE_pairwise (l : List ℚ) (t : ℚ) :
    (candidatesLE l t).Pairwise (· < ·) :=
  (List.pairwise_lt_range l.length).sublist (List.filter_sublist _)

theorem getLast?_mem {α : Type} :
    ∀ {l : List α} {f : α}, l.getLast? = some f → f ∈ l := by
  intro l
  induction l with
  | nil => intro f h; simp at h
  | cons x xs ih =>
    intro f h
    cases xs with
    | nil => simp_all
    | cons y ys =>
      rw [List.getLast?_cons_cons] at h
      exact List.mem_cons_of_mem _ (ih h)

theorem pairwise_lt_getLast?_max :
    ∀ {l : List Nat} {f : Nat}, l.Pairwise (· < ·) → l.getLast? = some f →
      ∀ k ∈ l, k ≤ f := by
  intro l
  induction l with
  | nil => intro f _ h; simp at h
  | cons x xs ih =>
    intro f hp hl k hk
    cases xs with
    | nil =>
      simp only [List.getLast?_singleton, Option.some.injEq] at hl
      simp only [List.mem_singleton] at hk
      omega
    | cons y ys =>
      rw [List.getLast?_cons_cons] at hl
      rcases List.mem_cons.mp hk with rfl | hk'
      · have hf : f ∈ y :: ys := getLast?_mem hl
        have := (List.pairwise_cons.mp hp).1 f hf
        omega
      · exact ih (List.pairwise_cons.mp hp).2 hl k hk'

theorem pairwise_lt_head?_min :
    ∀ {l : List Nat} {c : Nat}, l.Pairwise (· < ·) → l.head? = some c →
      ∀ k ∈ l, c ≤ k := by
  intro l c hp hl k hk
  cases l with
  | nil => simp at hl
  | cons x xs =>
    simp only [List.head?_cons, Option.some.injEq] at hl
    subst hl
    rcases List.mem_cons.mp hk with rfl | hk'
    · exact le_refl _
    · exact le_of_lt ((List.pairwise_cons.mp hp).1 k hk')

theorem getD_take {l : List ℚ} {n i : Nat} (h : i < n) :
    (l.take n).getD i 0 = l.getD i 0 := by
  simp [List.getD, List.getElem?_take, h]

/-! ## Specification-side predicates for the retracker -/

theorem argmax_isFirstMaxIndex (a : List ℚ) (h : a ≠ []) :
    IsFirstMaxIndex a (argmax a) :=
  ⟨argmax_lt_length a h, fun i hi => getD_le_argmax a i hi,
    fun i hi => getD_lt_of_lt_argmax a i hi⟩

/-- The leftward branch of `lin_interp_from_first_max` satisfies the
specification predicate whenever it returns a value. -/
theorem lin_interp_LEFT_characterization (a : List ℚ) (t r : ℚ)
    (ha : a ≠ [])
    (h : lin_interp_from_first_max a t .LEFT = some r) :
    TfmraLeftResultSpec a t r := by
  have hplen : argmax a < a.length := argmax_lt_length a ha
  refine ⟨argmax a, argmax_isFirstMaxIndex a ha, ?_⟩
  unfold lin_interp_from_first_max at h
  dsimp only at h
  by_cases ht : t = 1
  · rw [if_pos ht] at h
    exact Or.inl ⟨ht, by simpa using h.symm⟩
  · rw [if_neg ht] at h
    by_cases hp : argmax a = 0
    · rw [if_pos hp] at h
      refine Or.inr (Or.inl ⟨ht, hp, ?_⟩)
      rw [hp] at h
      simpa using h.symm
    · rw [if_neg hp] at h
      rcases hL : (candidatesLE (a.take (argmax a))
          (a.getD (argmax a) 0 * t)).getLast? with _ | f
      · rw [hL] at h
        simp at h
      · rw [hL] at h
        dsimp only at h
        have hlentake : (a.take (argmax a)).length = argmax a := by
          rw [List.length_take]
          omega
        have hmemf := mem_candidatesLE.mp (getLast?_mem hL)
        have hflt : f < argmax a := by
          have := hmemf.1
          omega
        have hfle : a.getD f 0 ≤ a.getD (argmax a) 0 * t := by
          have := hmemf.2
          rwa [getD_take hflt] at this
        have hmaxim : ∀ k, f < k → k < argmax a →
            a.getD (argmax a) 0 * t < a.getD k 0 := by
          intro k hk1 hk2
          by_contra hcon
          push_neg at hcon
          have hkmem : k ∈ candidatesLE (a.take (argmax a))
              (a.getD (argmax a) 0 * t) := by
            refine mem_candidatesLE.mpr ⟨by omega, ?_⟩
            rwa [getD_take hk2]
          have := pairwise_lt_getLast?_max
            (candidatesLE_pairwise _ _) hL k hkmem
          omega
        refine Or.inr (Or.inr ⟨ht, by omega, f, hflt, hfle, hmaxim, ?_⟩)
        by_cases hveq : a.getD f 0 = a.getD (argmax a) 0 * t
        · rw [if_pos hveq] at h
          exact Or.inl ⟨hveq, by simpa using h.symm⟩
        · rw [if_neg hveq] at h
          have hvflt : a.getD f 0 < a.getD (argmax a) 0 * t :=
            lt_of_le_of_ne hfle hveq
          have hstep : a.getD f 0 < a.getD (f + 1) 0 := by
            rcases Nat.lt_or_ge (f + 1) (argmax a) with hlt | hge
            · exact lt_trans hvflt (hmaxim (f + 1) (by omega) hlt)
            · have hfeq : f + 1 = argmax a := by omega
              have := getD_lt_of_lt_argmax a f hflt
              rwa [← hfeq] at this
          have hne : a.getD (f + 1) 0 - a.getD f 0 ≠ 0 :=
            sub_ne_zero.mpr (ne_of_gt hstep)
          have hr : r = ((f : ℚ) + 1) -
              (a.getD (f + 1) 0 - a.getD (argmax a) 0 * t) /
                (a.getD (f + 1) 0 - a.getD f 0) := by
            have := h.symm
            simp only [Option.some.injEq] at this
            rw [this]
            push_cast
            ring
          refine Or.inr ⟨hvflt, ?_⟩
          have key : ∀ (x y T c : ℚ), y - x ≠ 0 →
              x + (c + 1 - (y - T) / (y - x) - c) * (y - x) = T := by
            intro x y T c hd
            field_simp
            ring
          rw [hr]
          exact key _ _ _ _ hne

/-! ## Indexing into `calc_tfmra_elevation` -/

theorem calc_tfmra_getD (ts : List ℚ) (w : List (List ℚ)) (fbe : List ℚ)
    (b : ℚ) (i j : Nat) (hi : i < w.length) (hif : i < fbe.length)
    (hj : j < ts.length) :
    ((calc_tfmra_elevation ts w fbe b).getD i []).getD j none
      = (lin_interp_from_first_max (w.getD i []) (ts.getD j 0) .LEFT).map
          (fun x => fbe.getD i 0 - x * b) := by
  have hz : i < (w.zip fbe).length := by
    rw [List.length_zip]
    omega
  have h1 : (calc_tfmra_elevation ts w fbe b).getD i []
      = ts.map (fun t =>
          (lin_interp_from_first_max (w.getD i []) t .LEFT).map
            (fun x => fbe.getD i 0 - x * b)) := by
    unfold calc_tfmra_elevation
    rw [List.getD_eq_getElem _ _ (by simpa using hz)]
    rw [List.getElem_map, List.getElem_zip]
    dsimp only
    rw [List.getD_eq_getElem _ _ hi, List.getD_eq_getElem _ _ hif]
  rw [h1]
  rw [List.getD_eq_getElem _ _ (by simpa using hj)]
  rw [List.getElem_map]
  rw [List.getD_eq_getElem _ _ hj]

/-! ## `find?` returns the first match in list order -/

theorem find?_first_characterization {α : Type} (p : α → Bool) (d : α) :
    ∀ (l : List α) (x : α), l.find? p = some x →
      ∃ i, i < l.length ∧ l.getD i d = x ∧ p x = true ∧
        ∀ j, j < i → p (l.getD j d) = false := by
  intro l
  induction l with
  | nil => intro x h; simp at h
  | cons a as ih =>
    intro x h
    by_cases hpa : p a = true
    · rw [List.find?_cons_of_pos _ hpa] at h
      have hx : a = x := by simpa using h
      exact ⟨0, by simp, by simpa using hx, hx ▸ hpa,
        fun j hj => absurd hj (Nat.not_lt_zero j)⟩
    · rw [List.find?_cons_of_neg _ (by simpa using hpa)] at h
      obtain ⟨i, hi, hgx, hpx, hprev⟩ := ih x h
      refine ⟨i + 1, by simpa using hi, by simpa using hgx, hpx, ?_⟩
      intro j hj
      cases j with
      | zero =>
        simp only [List.getD_cons_zero]
        exact Bool.not_eq_true _ ▸ (by simpa using hpa)
      | succ k =>
        simp only [List.getD_cons_succ]
        exact hprev k (by omega)

/-! ## Cursor arithmetic of the block decoder -/

theorem read_field_snd (fs : FileState) (r : ReadRule) :
    (read_field fs r).2
      = ⟨fs.data, fs.pos + min r.size (fs.data.length - fs.pos)⟩ := by
  unfold read_field fread
  dsimp only
  by_cases h1 : r.save_output
  · simp only [if_pos h1]
    by_cases h2 : r.multi
    · simp only [if_pos h2]
      by_cases h3 : r.scale ≠ 1
      · simp only [if_pos h3]
      · simp only [if_neg h3]
    · simp only [if_neg h2]
      by_cases h3 : r.scale ≠ 1
      · simp only [if_pos h3]
      · simp only [if_neg h3]
  · simp only [if_neg h1]

theorem read_row_foldl_pos :
    ∀ (rules : List ReadRule) (vs : List Value) (fs : FileState),
      fs.pos + (rules.map ReadRule.size).sum ≤ fs.data.length →
      (rules.foldl
        (fun acc r =>
          match read_field acc.2 r with
          | (some v, fs') => (acc.1 ++ [v], fs')
          | (none, fs') => (acc.1, fs'))
        (vs, fs)).2.pos
        = fs.pos + (rules.map ReadRule.size).sum := by
  intro rules
  induction rules with
  | nil => intro vs fs _; simp
  | cons r rs ih =>
    intro vs fs h
    simp only [List.map_cons, List.sum_cons] at h ⊢
    rw [List.foldl_cons]
    dsimp only
    have hsnd := read_field_snd fs r
    have hmin : min r.size (fs.data.length - fs.pos) = r.size := by omega
    rw [hmin] at hsnd
    rcases hrf : read_field fs r with ⟨v?, fs'⟩
    have hfs' : fs' = ⟨fs.data, fs.pos + r.size⟩ := by
      rw [hrf] at hsnd
      exact hsnd
    have hbound : fs'.pos + (rs.map ReadRule.size).sum ≤ fs'.data.length := by
      rw [hfs']
      dsimp only
      omega
    cases v? with
    | some v =>
      have := ih (vs ++ [v]) fs' hbound
      dsimp only
      rw [this, hfs']
      dsimp only
      omega
    | none =>
      have := ih vs fs' hbound
      dsimp only
      rw [this, hfs']
      dsimp only
      omega

theorem get_group_read_rules_sizes (skip : String) (group : List FieldSpec) :
    ((get_group_read_rules skip group).map ReadRule.size).sum
      = groupStride group := by
  unfold get_group_read_rules groupStride
  rw [List.map_map]
  rfl

/-! ## The per-line filtering loop of the ALS loader -/

theorem process_line_foldl :
    ∀ (rows : List AlsPoint) (buffer : List AlsPoint) (c : Nat),
      rows.foldl
        (fun acc r => if ¬hasNaN r then (acc.1 ++ [r], acc.2 + 1) else acc)
        (buffer, c)
        = (buffer ++ rows.filter (fun r => !hasNaN r),
            c + (rows.filter (fun r => !hasNaN r)).length) := by
  intro rows
  induction rows with
  | nil => intro buffer c; simp
  | cons r rs ih =>
    intro buffer c
    rw [List.foldl_cons]
    dsimp only
    by_cases hr : hasNaN r = true
    · rw [if_neg (fun hcon => hcon hr), ih]
      simp [List.filter_cons, hr]
    · rw [if_pos hr, ih]
      have hrf : hasNaN r = false := by
        cases hb : hasNaN r
        · rfl
        · exact absurd hb hr
      simp only [List.filter_cons, hrf, Bool.not_false, if_true,
        List.append_assoc, List.singleton_append, List.length_cons,
        Prod.mk.injEq]
      exact ⟨trivial, by omega⟩

/-! ## Claim theorems -/

/-- Claim C1, counterexample to the claim as stated.  The claim says the
retracker starts the leftward search from "the first local maximum" of the
row.  On the row `[0, 5, 3, 8, 0]` the first local maximum is the value `5`
at index `1`, but the code anchors at `np.argmax`, the first occurrence of
the *global* maximum (`8` at index `3`): at threshold `0.5` the code
returns fractional index `11/5`, while the claim's algorithm (identical
except for the anchoring) returns `1/2`. -/
theorem tfmra_first_local_max_counterexample :
    lin_interp_from_first_max [0, 5, 3, 8, 0] (1/2) .LEFT = some (11/5)
    ∧ lin_interp_from_first_local_max [0, 5, 3, 8, 0] (1/2) = some (1/2)
    ∧ (11/5 : ℚ) ≠ 1/2
    ∧ argmax [0, 5, 3, 8, 0] = 3
    ∧ firstLocalMax [0, 5, 3, 8, 0] = 1 := by
  refine ⟨?_, ?_, ?_, ?_, ?_⟩
  · with_unfolding_all rfl
  · with_unfolding_all rfl
  · with_unfolding_all decide
  · decide
  · decide

/-- Claim C1 (amended: the search is anchored at the first occurrence of
the row's *global* maximum, `np.argmax`, not at the first local maximum).
For every waveform row `i` and configured threshold `t` with `0 < t ≤ 1`
for which the leftward search returns a fractional index `r`, the TFMRA
elevation table holds `first_bin_elvtn[i] - r * bin_size` at cell `(i, j)`
— computed from row `i` and threshold `j` alone, independently of every
other row and threshold — and `r` satisfies the claim's description of the
search: anchored at the first-occurrence global maximum `p`, at `t = 1` it
is `p` itself, with the maximum at index `0` it is that boundary, and
otherwise there is a last index `f` left of `p` with value `≤ t * max`
(every index strictly between is above the target), `r = f` exactly when
the value there equals the target, and otherwise the line through
`(f, row[f])` and `(f+1, row[f+1])` passes through `(r, t * max)`. -/
theorem tfmra_retracks_from_first_global_max
    (thresholds : List ℚ) (waveform : List (List ℚ))
    (first_bin_elvtn : List ℚ) (bin_size : ℚ) (i j : Nat) (r : ℚ)
    (hi : i < waveform.length) (hif : i < first_bin_elvtn.length)
    (hj : j < thresholds.length)
    (ht0 : 0 < thresholds.getD j 0) (ht1 : thresholds.getD j 0 ≤ 1)
    (hrow : waveform.getD i [] ≠ [])
    (hr : lin_interp_from_first_max (waveform.getD i [])
      (thresholds.getD j 0) .LEFT = some r) :
    ((calc_tfmra_elevation thresholds waveform first_bin_elvtn
        bin_size).getD i []).getD j none
      = some (first_bin_elvtn.getD i 0 - r * bin_size)
    ∧ TfmraLeftResultSpec (waveform.getD i []) (thresholds.getD j 0) r := by
  constructor
  · rw [calc_tfmra_getD thresholds waveform first_bin_elvtn bin_size i j
      hi hif hj, hr]
    rfl
  · exact lin_interp_LEFT_characterization _ _ _ hrow hr

/-- Witness for C1 at the synthetic row `[0,2,4,6,8,6,4,2,0]`, threshold
`1/2`, `first_bin_elvtn = [100]`, `bin_size = 1`: the search returns index
`2` and the elevation table holds `100 - 2 * 1`. -/
theorem tfmra_retracks_from_first_global_max_witness :
    lin_interp_from_first_max [0, 2, 4, 6, 8, 6, 4, 2, 0] (1/2) .LEFT
      = some 2
    ∧ (((calc_tfmra_elevation [1/2] [[0, 2, 4, 6, 8, 6, 4, 2, 0]] [100]
          1).getD 0 []).getD 0 none
        = some (100 - 2 * 1)
      ∧ TfmraLeftResultSpec [0, 2, 4, 6, 8, 6, 4, 2, 0] (1/2) 2) := by
  have hr : lin_interp_from_first_max [0, 2, 4, 6, 8, 6, 4, 2, 0]
      (([1/2] : List ℚ).getD 0 0) .LEFT = some 2 := by
    with_unfolding_all rfl
  have := tfmra_retracks_from_first_global_max [1/2]
    [[0, 2, 4, 6, 8, 6, 4, 2, 0]] [100] 1 0 0 2
    (by decide) (by decide) (by decide)
    (by norm_num) (by norm_num) (by decide)
    (by simpa using hr)
  refine ⟨by simpa using hr, ?_, ?_⟩
  · simpa using this.1
  · simpa using this.2

/-- Claim C2, counterexample to the claim as stated.  For the row
`[0,2,4,6,8,6,4,2,0]` and threshold `0.5` the target is `4.0`, and the
value `4` sits at index `2` (not at index `3`, where the value is `6`), so
the leftward search does not return `3`. -/
theorem retracker_synthetic_row_not_index_three :
    lin_interp_from_first_max [0, 2, 4, 6, 8, 6, 4, 2, 0] (1/2) .LEFT
      ≠ some 3 := by
  with_unfolding_all decide

/-- Claim C2 (amended: the search returns the integer index `2`, because
the last index left of the peak whose value is `≤ 4.0` is index `2`, whose
value `4` equals the target exactly, so the equal-value case applies and
no fractional interpolation is performed). -/
theorem retracker_synthetic_row_returns_index_two :
    lin_interp_from_first_max [0, 2, 4, 6, 8, 6, 4, 2, 0] (1/2) .LEFT
      = some 2 := by
  with_unfolding_all rfl

/-- Claim C3: evaluation of the return-width computation of
`create_wshape_table` at the row `[0,2,4,6,8,6,4,2,0]` with signal
threshold `0.5` and `bin_size = 1`.  The half-power boundaries are the
absolute bin indices `2` (left) and `6` (right) around the peak index `4`,
so the claim's formula gives `(4-2)*1 + (6-4)*1 = 4`; the code instead
computes `rwidth_right = (peak_index + return_bound_right) * bin_size
= (4+6)*1 = 10` (a `+` where the distance needs a `-`), so `rwidth_full`
is `12`, not `4`. -/
theorem rwidth_right_adds_peak_index_eval :
    return_bound_left [0, 2, 4, 6, 8, 6, 4, 2, 0] (1/2) = some 2
    ∧ return_bound_right [0, 2, 4, 6, 8, 6, 4, 2, 0] (1/2) = some 6
    ∧ argmax [0, 2, 4, 6, 8, 6, 4, 2, 0] = 4
    ∧ rwidth_left [0, 2, 4, 6, 8, 6, 4, 2, 0] (1/2) 1 = some 2
    ∧ rwidth_right [0, 2, 4, 6, 8, 6, 4, 2, 0] (1/2) 1 = some 10
    ∧ rwidth_full [0, 2, 4, 6, 8, 6, 4, 2, 0] (1/2) 1 = some 12
    ∧ rwidth_full [0, 2, 4, 6, 8, 6, 4, 2, 0] (1/2) 1
        ≠ some (((4 : ℚ) - 2) * 1 + ((6 : ℚ) - 4) * 1) := by
  refine ⟨?_, ?_, ?_, ?_, ?_, ?_, ?_⟩
  · with_unfolding_all rfl
  · with_unfolding_all rfl
  · decide
  · with_unfolding_all rfl
  · with_unfolding_all rfl
  · with_unfolding_all rfl
  · with_unfolding_all decide

/-- Claim C4: evaluation of the pulse-peakiness computation of
`create_wshape_table` at rows whose denominator sum is zero.  The code
computes `ppeak_full = peak_value / np.sum(scaled_waveform, 1)`, dividing
by the freshly recomputed row sum instead of the `sum_full` array whose
zeros were just replaced by the NaN sentinel, so the zero-guard on
`sum_full` is dead: on the zero-sum row `[1, -1]` the full peakiness is
`inf` — the result of a `1/0` division, not the substituted sentinel
(which `sum_full_guarded` shows would be NaN) — and on the all-zero row it
is the NaN produced by the `0/0` division.  The left- and right-window
peakiness paths do divide by their guarded sums. -/
theorem ppeak_full_divides_by_unguarded_sum_eval :
    ppeak_full [1, -1] = FloatVal.inf
    ∧ sum_full_guarded [1, -1] = FloatVal.nan
    ∧ FloatVal.inf ≠ FloatVal.nan
    ∧ ppeak_full [0, 0, 0] = FloatVal.nan
    ∧ ppeak_left [0, 0, 0] [-1, -2] = FloatVal.nan
    ∧ ppeak_right [0, 0, 0] [1, 2] = FloatVal.nan := by
  refine ⟨?_, ?_, ?_, ?_, ?_, ?_⟩
  · with_unfolding_all rfl
  · with_unfolding_all rfl
  · decide
  · with_unfolding_all rfl
  · with_unfolding_all rfl
  · with_unfolding_all rfl

/-- Claim C5: the leftward short-circuit behaves as claimed — a row whose
maximum sits at index `0` makes the `LEFT` search return that boundary
index for every threshold — but the rightward short-circuit is dead code:
the guard compares `index_peak` to `array.size`, which `np.argmax` can
never equal (it returns at most `size - 1`), so on `[0,1,2,3]` (maximum at
the last index, `3`) with threshold `0.5` the `RIGHT` search falls through
to the crossing scan over the single-element tail `[3]`, finds no value
`≤ 1.5`, and returns `None` instead of the boundary index `3`. -/
theorem crossing_search_boundary_short_circuit :
    (∀ (a : List ℚ) (t : ℚ), argmax a = 0 →
      lin_interp_from_first_max a t .LEFT = some 0)
    ∧ argmax [0, 1, 2, 3] = 3
    ∧ ([0, 1, 2, 3] : List ℚ).length = 4
    ∧ lin_interp_from_first_max [0, 1, 2, 3] (1/2) .RIGHT = none := by
  refine ⟨?_, by decide, by decide, by with_unfolding_all rfl⟩
  intro a t hp
  unfold lin_interp_from_first_max
  dsimp only
  rw [hp]
  by_cases ht : t = 1
  · rw [if_pos ht]
    rfl
  · rw [if_neg ht, if_pos rfl]
    rfl

/-- Witness for the hypothesis-bearing half of C5: on `[5, 1]` the maximum
sits at index `0` and the leftward search returns `0` at threshold
`1/3`. -/
theorem crossing_search_boundary_short_circuit_witness :
    argmax [5, 1] = 0
    ∧ lin_interp_from_first_max [5, 1] (1/3) .LEFT = some 0 :=
  ⟨by decide, crossing_search_boundary_short_circuit.1 [5, 1] (1/3)
    (by decide)⟩

/-- Claim C6: in the block decoder, the cursor position after decoding any
prefix of a field group's rules is the start position plus the sum of the
declared byte widths (`count * itemSize`) of the prefix's fields — a pure
function of the `FieldSpec` list.  The right-hand side mentions neither
the file's bytes nor whether fields are skip or materialized, so cursor
advancement is independent of both, for any well-sized input. -/
theorem block_decoder_cursor_advance
    (group : List FieldSpec) (skip : String) (fs : FileState) (k : Nat)
    (h : fs.pos + groupStride (group.take k) ≤ fs.data.length) :
    (read_row fs ((get_group_read_rules skip group).take k)).2.pos
      = fs.pos + groupStride (group.take k) := by
  have htake : (get_group_read_rules skip group).take k
      = get_group_read_rules skip (group.take k) := by
    unfold get_group_read_rules
    rw [List.map_take]
  rw [htake]
  unfold read_row
  rw [read_row_foldl_pos (get_group_read_rules skip (group.take k)) [] fs
    (by rw [get_group_read_rules_sizes]; exact h)]
  rw [get_group_read_rules_sizes]

/-- Witness for C6: a three-field group (a 4-byte scalar, an 8-byte skip
filler, a scaled 3-element array of 4-byte items) decoded from a 30-byte
file leaves the cursor at `0 + (4 + 8 + 12)`. -/
theorem block_decoder_cursor_advance_witness :
    (read_row ⟨List.replicate 30 0, 0⟩
        ((get_group_read_rules "~"
          [⟨"days", 4, true, 1, 1⟩, ⟨"~", 1, false, 1, 8⟩,
            ⟨"velocity_xyz", 4, true, 1/1000, 3⟩]).take 3)).2.pos
      = 0 + groupStride
          ([⟨"days", 4, true, 1, 1⟩, ⟨"~", 1, false, 1, 8⟩,
            ⟨"velocity_xyz", 4, true, 1/1000, 3⟩].take 3) :=
  block_decoder_cursor_advance
    [⟨"days", 4, true, 1, 1⟩, ⟨"~", 1, false, 1, 8⟩,
      ⟨"velocity_xyz", 4, true, 1/1000, 3⟩] "~"
    ⟨List.replicate 30 0, 0⟩ 3 (by decide)

/-- Claim C7: the dataset selection returns the first header in table
order whose name field starts with the prefix — there is an index `i` with
the returned header at position `i`, matching the prefix, such that no
earlier entry matches. -/
theorem dataset_selection_first_in_table_order
    (dsh : List HeaderMap) (name_key pfx : String) (d : HeaderMap)
    (h : select_asiras_dsh dsh name_key pfx = some d) :
    ∃ i, i < dsh.length ∧ dsh.getD i [] = d
      ∧ dsh_matches name_key pfx d = true
      ∧ ∀ j, j < i → dsh_matches name_key pfx (dsh.getD j []) = false :=
  find?_first_characterization (dsh_matches name_key pfx) [] dsh d h

/-- Witness for C7: the claim's own example — among `"XYZ_INFO"`,
`"ASI_L1B"`, `"ASI_L2"` with prefix `"ASI"`, the entry `"ASI_L1B"` is
selected as the first matching entry in table order. -/
theorem dataset_selection_first_in_table_order_witness :
    select_asiras_dsh
        [[("DS_NAME", "XYZ_INFO")], [("DS_NAME", "ASI_L1B")],
          [("DS_NAME", "ASI_L2")]] "DS_NAME" "ASI"
      = some [("DS_NAME", "ASI_L1B")]
    ∧ ∃ i, i < 3
      ∧ ([[("DS_NAME", "XYZ_INFO")], [("DS_NAME", "ASI_L1B")],
          [("DS_NAME", "ASI_L2")]] : List HeaderMap).getD i []
        = [("DS_NAME", "ASI_L1B")]
      ∧ dsh_matches "DS_NAME" "ASI" [("DS_NAME", "ASI_L1B")] = true
      ∧ ∀ j, j < i →
          dsh_matches "DS_NAME" "ASI"
            (([[("DS_NAME", "XYZ_INFO")], [("DS_NAME", "ASI_L1B")],
              [("DS_NAME", "ASI_L2")]] : List HeaderMap).getD j [])
            = false := by
  have hsel : select_asiras_dsh
      [[("DS_NAME", "XYZ_INFO")], [("DS_NAME", "ASI_L1B")],
        [("DS_NAME", "ASI_L2")]] "DS_NAME" "ASI"
      = some [("DS_NAME", "ASI_L1B")] := by
    with_unfolding_all rfl
  refine ⟨hsel, ?_⟩
  have := dataset_selection_first_in_table_order _ "DS_NAME" "ASI" _ hsel
  simpa using this

/-- Claim C8: evaluation of the dataset-location code on a dataset table
with no matching entry (single header named `"XYZ_INFO"`, prefix `"ASI"`).
Because `next` is called with the default `None`, `StopIteration` is never
raised and the dedicated `DatasetNotFound` handler is dead code; the
extraction instead crashes with `TypeError: 'NoneType' object is not
subscriptable` when `asiras_dsh[dsh_blocks_key]` is evaluated. -/
theorem missing_dataset_raises_type_error_eval :
    read_num_blocks [[("DS_NAME", "XYZ_INFO")]] "DS_NAME" "ASI" "NUM_DSR"
      = Except.error PyError.typeError
    ∧ PyError.typeError ≠ PyError.datasetNotFound :=
  ⟨by with_unfolding_all rfl, by decide⟩

/-- Claim C9: in the scanner's per-line loop, a decoded point is appended
to the batch iff none of its three components is NaN — the final buffer is
the old buffer followed by exactly the NaN-free points of the line in
order, the buffered-point counter grows by their number, and the dropped
count (`points_per_line` minus the points kept from the line) is exactly
the number of points with at least one NaN component. -/
theorem als_nan_filtering (buffer : List AlsPoint) (c : Nat)
    (line_elv line_lon line_lat : List (Option ℚ)) (ppl : Nat)
    (h1 : line_elv.length = ppl) (h2 : line_lon.length = ppl)
    (h3 : line_lat.length = ppl) :
    process_line buffer c line_elv line_lon line_lat
      = (buffer ++ (line_rows line_elv line_lon line_lat).filter
            (fun r => !hasNaN r),
          c + ((line_rows line_elv line_lon line_lat).filter
            (fun r => !hasNaN r)).length)
    ∧ (line_rows line_elv line_lon line_lat).length = ppl
    ∧ ppl - ((line_rows line_elv line_lon line_lat).filter
          (fun r => !hasNaN r)).length
        = ((line_rows line_elv line_lon line_lat).filter hasNaN).length := by
  have hlr : (line_rows line_elv line_lon line_lat).length = ppl := by
    unfold line_rows
    rw [List.length_zip, List.length_zip, h1, h2, h3]
    simp
  refine ⟨?_, hlr, ?_⟩
  · unfold process_line
    exact process_line_foldl _ buffer c
  · have hsplit := List.length_eq_length_filter_add
      (l := line_rows line_elv line_lon line_lat) hasNaN
    omega

/-- Witness for C9: a line of three points, one with a NaN elevation and
two fully valid, yields exactly the two valid points (buffer length `2`)
and a dropped count of exactly `1`. -/
theorem als_nan_filtering_witness :
    process_line [] 0 [some 10, none, some 12] [some 1, some 2, some 3]
        [some 4, some 5, some 6]
      = ([] ++ (line_rows [some 10, none, some 12] [some 1, some 2, some 3]
            [some 4, some 5, some 6]).filter (fun r => !hasNaN r),
          0 + ((line_rows [some 10, none, some 12] [some 1, some 2, some 3]
            [some 4, some 5, some 6]).filter (fun r => !hasNaN r)).length)
    ∧ ((line_rows [some 10, none, some 12] [some 1, some 2, some 3]
          [some 4, some 5, some 6]).filter (fun r => !hasNaN r)).length = 2
    ∧ 3 - ((line_rows [some 10, none, some 12] [some 1, some 2, some 3]
          [some 4, some 5, some 6]).filter (fun r => !hasNaN r)).length
        = ((line_rows [some 10, none, some 12] [some 1, some 2, some 3]
          [some 4, some 5, some 6]).filter hasNaN).length := by
  have := als_nan_filtering [] 0 [some 10, none, some 12]
    [some 1, some 2, some 3] [some 4, some 5, some 6] 3
    (by decide) (by decide) (by decide)
  exact ⟨this.1, by decide, this.2.2⟩

/-- Claim C10: when the threshold equals exactly `1`, the
crossing-interpolation function returns the integer index of the first
occurrence of the array maximum for either search direction, with no
crossing search and no interpolation, and consequently the retracked
elevation at threshold `1` is
`first_bin_elvtn[i] - argmax(row i) * bin_size`. -/
theorem threshold_one_returns_argmax (thresholds : List ℚ)
    (waveform : List (List ℚ)) (first_bin_elvtn : List ℚ) (bin_size : ℚ)
    (i j : Nat) (hi : i < waveform.length)
    (hif : i < first_bin_elvtn.length) (hj : j < thresholds.length)
    (ht : thresholds.getD j 0 = 1) :
    (∀ dir, lin_interp_from_first_max (waveform.getD i [])
        (thresholds.getD j 0) dir
      = some ((argmax (waveform.getD i []) : ℚ)))
    ∧ ((calc_tfmra_elevation thresholds waveform first_bin_elvtn
          bin_size).getD i []).getD j none
      = some (first_bin_elvtn.getD i 0
          - (argmax (waveform.getD i []) : ℚ) * bin_size) := by
  have h1 : ∀ dir, lin_interp_from_first_max (waveform.getD i [])
      (thresholds.getD j 0) dir
      = some ((argmax (waveform.getD i []) : ℚ)) := by
    intro dir
    rw [ht]
    unfold lin_interp_from_first_max
    dsimp only
    rw [if_pos rfl]
  refine ⟨h1, ?_⟩
  rw [calc_tfmra_getD thresholds waveform first_bin_elvtn bin_size i j
    hi hif hj, h1 .LEFT]
  rfl

/-- Witness for C10: thresholds `[1]`, waveform `[[2, 7, 3]]` (maximum `7`
first occurs at index `1`), `first_bin_elvtn = [50]`, `bin_size = 2`: both
directions return index `1` and the elevation is `50 - 1 * 2`. -/
theorem threshold_one_returns_argmax_witness :
    (∀ dir, lin_interp_from_first_max [2, 7, 3] 1 dir = some 1)
    ∧ ((calc_tfmra_elevation [1] [[2, 7, 3]] [50] 2).getD 0 []).getD 0 none
      = some (50 - 1 * 2) := by
  have harg : argmax [2, 7, 3] = 1 := by decide
  have := threshold_one_returns_argmax [1] [[2, 7, 3]] [50] 2 0 0
    (by decide) (by decide) (by decide) (by decide)
  constructor
  · intro dir
    have h := this.1 dir
    simpa [harg] using h
  · have h := this.2
    simpa [harg] using h
